import Mathlib

/-!
Shallow embedding of the rolling historical-percentile positioning engine of
src/pages/1_COT_MM_Dashboard.py (function calculate_cot_metrics, the
latest_alerts selection and the start_current cutoff), together with proofs of
the specified properties.

Modelling conventions:
  * pandas floating point NaN is modelled as Option.none; all finite numeric
    values are rationals.
  * report dates are rationals counting days (proleptic Gregorian ordinals, as
    in Python date.toordinal, so that Timedelta arithmetic with the fractional
    constant 365.25 is exact).
  * the intermediate result of the division on line 96, before line 97 replaces
    infinities by NaN, is modelled by PFloat, which can also hold the two
    infinities produced by dividing a nonzero number by zero.
-/

namespace COT

/-- A raw input field as it arrives from the report: a numeric value, a
non-numeric string, or missing.  pd.to_numeric with errors equal to coerce maps
the last two cases to NaN. -/
inductive RawField where
  | num (q : ℚ)
  | nonNumeric
  | null
deriving DecidableEq

/-- Line 90: pd.to_numeric(col, errors coerce): numeric values pass through,
anything else becomes NaN (none). -/
def toNumeric : RawField → Option ℚ
  | .num q => some q
  | .nonNumeric => none
  | .null => none

/-- A raw per-instrument, per-week record as ingested (one row of the raw
DataFrame restricted to the columns the engine reads). -/
structure RawRec where
  instrument : String
  date : ℚ
  long : RawField
  short : RawField
  oi : RawField
deriving DecidableEq

/-- A pandas float value: finite, one of the infinities, or NaN.  Used to model
the division of line 96 before the inf-replacement of line 97. -/
inductive PFloat where
  | val (q : ℚ)
  | posInf
  | negInf
  | nan
deriving DecidableEq

/-- Embed an Option-modelled float (finite or NaN) into PFloat. -/
def PFloat.ofOpt : Option ℚ → PFloat
  | some q => .val q
  | none => .nan

/-- IEEE-754 style division as pandas performs it on line 96.  Finite by zero
gives a signed infinity (NaN for zero by zero); any NaN operand gives NaN.  The
operands reaching this function in the pipeline are always finite or NaN, so
the catch-all NaN case is exercised only for NaN operands. -/
def PFloat.div : PFloat → PFloat → PFloat
  | .val a, .val b =>
      if b = 0 then (if 0 < a then .posInf else if a < 0 then .negInf else .nan)
      else .val (a / b)
  | _, _ => .nan

/-- Multiplication by the literal 100 on line 96 (100 is positive, so the
infinities keep their signs and NaN stays NaN). -/
def PFloat.mul100 : PFloat → PFloat
  | .val a => .val (a * 100)
  | .posInf => .posInf
  | .negInf => .negInf
  | .nan => .nan

/-- Line 97: df.replace([np.inf, -np.inf], np.nan). -/
def replaceInfWithNan : PFloat → PFloat
  | .posInf => .nan
  | .negInf => .nan
  | x => x

/-- Read a PFloat back as an Option-modelled float; both infinities have been
replaced already when this is applied, and NaN becomes none. -/
def PFloat.toOpt : PFloat → Option ℚ
  | .val q => some q
  | _ => none

/-- Line 93: Net_Position = Long - Short, with NaN propagation. -/
def netPosition (l s : Option ℚ) : Option ℚ :=
  match l, s with
  | some a, some b => some (a - b)
  | _, _ => none

/-- Lines 96-97: Net_Position_%_OI = (Net_Position / Open_Interest) * 100 with
IEEE division, then infinities replaced by NaN. -/
def netPositionPct (net oi : Option ℚ) : Option ℚ :=
  (replaceInfWithNan (((PFloat.ofOpt net).div (PFloat.ofOpt oi)).mul100)).toOpt

/-- A record after numeric coercion and the ratio computations of lines 89-97.
pct is the Net_Position_%_OI column. -/
structure CRec where
  instrument : String
  date : ℚ
  long : Option ℚ
  short : Option ℚ
  oi : Option ℚ
  net : Option ℚ
  pct : Option ℚ
deriving DecidableEq

/-- Lines 89-97 applied to one raw record. -/
def coerceRec (r : RawRec) : CRec :=
  let l := toNumeric r.long
  let s := toNumeric r.short
  let o := toNumeric r.oi
  let n := netPosition l s
  { instrument := r.instrument, date := r.date, long := l, short := s, oi := o,
    net := n, pct := netPositionPct n o }

/-- Number of years of history used for the percentile window (line 17). -/
def yearsBackHistory : ℚ := 3

/-- Days per year approximation used on line 110. -/
def daysPerYear : ℚ := 365.25

/-- Line 110: history_start_date = current_date - 3 * 365.25 days. -/
def historyStartDate (d : ℚ) : ℚ := d - yearsBackHistory * daysPerYear

/-- Lines 114-117: the non-null Net_Position_%_OI values of the rows whose
report date lies in the half-open window [history_start_date d, d). -/
def histValues (cs : List CRec) (d : ℚ) : List ℚ :=
  (cs.filter (fun s => decide (historyStartDate d ≤ s.date) &&
      decide (s.date < d))).filterMap (·.pct)

/-- scipy.stats.percentileofscore with kind weak: the percentage of population
values less than or equal to the score (line 122). -/
def percentileOfScoreWeak (hist : List ℚ) (x : ℚ) : ℚ :=
  100 * (hist.countP (fun v => decide (v ≤ x)) : ℚ) / (hist.length : ℚ)

/-- Lines 119-123: the percentile rank of a record with report date d and
current value v against the rows cs of its instrument group: NaN when the
window holds no non-null value or when v itself is NaN, otherwise the weak
percentile score. -/
def rankFor (cs : List CRec) (d : ℚ) (v : Option ℚ) : Option ℚ :=
  let hist := histValues cs d
  if hist.isEmpty then none else v.map (fun q => percentileOfScoreWeak hist q)

/-- Alert classification values (the strings of lines 126-128). -/
inductive Alert where
  | overbought
  | oversold
  | neutral
deriving DecidableEq

/-- Lines 126-128: the Alert column starts as Neutral, rows with rank at least
ob are set to Overbought, then rows with rank at most os are set to Oversold
(the second assignment overwrites the first where both masks hold); a NaN rank
satisfies neither mask. -/
def classifyAlert (rank : Option ℚ) (ob os : ℚ) : Alert :=
  let a0 : Alert := .neutral
  let a1 : Alert :=
    match rank with
    | some q => if ob ≤ q then .overbought else a0
    | none => a0
  match rank with
  | some q => if q ≤ os then .oversold else a1
  | none => a1

/-- Overbought threshold hard-coded on line 127. -/
def overboughtThreshold : ℚ := 90

/-- Oversold threshold hard-coded on line 128. -/
def oversoldThreshold : ℚ := 10

/-- Trend values (the strings of lines 132-134). -/
inductive Trend where
  | up
  | down
  | flat
deriving DecidableEq

/-- Lines 131-134: Up when the current value strictly exceeds the prior row
value, Down when strictly below, otherwise the empty marker (equal values, or
either side NaN, including the first row whose shifted prior is NaN). -/
def trendOf (cur prior : Option ℚ) : Trend :=
  match cur, prior with
  | some a, some b => if b < a then .up else if a < b then .down else .flat
  | _, _ => .flat

/-- A fully processed record: the coerced fields plus the derived columns. -/
structure ProcRec where
  instrument : String
  date : ℚ
  long : Option ℚ
  short : Option ℚ
  oi : Option ℚ
  net : Option ℚ
  pct : Option ℚ
  rank : Option ℚ
  alert : Alert
  trend : Trend
deriving DecidableEq

/-- Derived columns for one row of a group: rank against the whole group,
alert from the rank, trend against the prior row value. -/
def mkRow (c : CRec) (all : List CRec) (prior : Option ℚ) : ProcRec :=
  { instrument := c.instrument, date := c.date, long := c.long, short := c.short,
    oi := c.oi, net := c.net, pct := c.pct,
    rank := rankFor all c.date c.pct,
    alert := classifyAlert (rankFor all c.date c.pct) overboughtThreshold oversoldThreshold,
    trend := trendOf c.pct prior }

/-- The per-row loop of lines 105-134, threading the shifted prior value. -/
def deriveRows : List CRec → List CRec → Option ℚ → List ProcRec
  | [], _, _ => []
  | c :: rest, all, prior => mkRow c all prior :: deriveRows rest all c.pct

/-- Line 103: the group re-sorted ascending by report date, after coercion. -/
def sortedGroup (g : List RawRec) : List CRec :=
  List.insertionSort (fun a b => a.date ≤ b.date) (g.map coerceRec)

/-- calculate_cot_metrics (lines 84-136) applied to one instrument group. -/
def processGroup (g : List RawRec) : List ProcRec :=
  deriveRows (sortedGroup g) (sortedGroup g) none

/-- Line 139: the engine applied groupwise over instruments.  The relative
order of the groups in the concatenation is irrelevant to every property
proved below, so the group keys are taken in first-occurrence order. -/
def processAll (recs : List RawRec) : List ProcRec :=
  ((recs.map (·.instrument)).dedup).map
    (fun id => processGroup (recs.filter (fun r => decide (r.instrument = id)))) |>.flatten

/-! ### Structural lemmas about the engine -/

theorem length_deriveRows (cs all : List CRec) (prior : Option ℚ) :
    (deriveRows cs all prior).length = cs.length := by
  induction cs generalizing prior with
  | nil => rfl
  | cons c rest ih => simp [deriveRows, ih]

theorem deriveRows_get (cs all : List CRec) (prior : Option ℚ) (i : ℕ)
    (h1 : i < (deriveRows cs all prior).length) (h2 : i < cs.length)
    (h3 : i < (prior :: cs.map (fun c => c.pct)).length) :
    (deriveRows cs all prior).get ⟨i, h1⟩ =
      mkRow (cs.get ⟨i, h2⟩) all ((prior :: cs.map (fun c => c.pct)).get ⟨i, h3⟩) := by
  induction cs generalizing prior i with
  | nil => exact absurd h2 (Nat.not_lt_zero i)
  | cons c rest ih =>
    cases i with
    | zero => rfl
    | succ j =>
      have hj : j < rest.length := Nat.lt_of_succ_lt_succ h2
      have hj1 : j < (deriveRows rest all c.pct).length := by
        rw [length_deriveRows]; exact hj
      have hj3 : j < (c.pct :: rest.map (fun c => c.pct)).length := by
        simp; omega
      exact ih c.pct j hj1 hj hj3

theorem length_processGroup (g : List RawRec) :
    (processGroup g).length = g.length := by
  unfold processGroup sortedGroup
  rw [length_deriveRows, List.length_insertionSort, List.length_map]

/-- The percentile score depends on the population only through its multiset
of values. -/
theorem percentileOfScoreWeak_perm {h h' : List ℚ} (p : h.Perm h') (x : ℚ) :
    percentileOfScoreWeak h x = percentileOfScoreWeak h' x := by
  unfold percentileOfScoreWeak
  rw [p.countP_eq, p.length_eq]

/-- The historical values of a group and of its restriction to the strictly
earlier records coincide. -/
theorem histValues_filter_lt (cs : List CRec) (d : ℚ) :
    histValues (cs.filter (fun s => decide (s.date < d))) d = histValues cs d := by
  unfold histValues
  rw [List.filter_filter]
  congr 1
  apply List.filter_congr
  intro a _
  by_cases hlt : a.date < d
  · simp [hlt]
  · simp [hlt]

/-- The historical values of a group and of its restriction to the trailing
window coincide. -/
theorem histValues_filter_window (cs : List CRec) (d : ℚ) :
    histValues (cs.filter (fun s => decide (historyStartDate d ≤ s.date) &&
      decide (s.date < d))) d = histValues cs d := by
  unfold histValues
  rw [List.filter_filter]
  congr 1
  apply List.filter_congr
  intro a _
  by_cases hge : historyStartDate d ≤ a.date
  · by_cases hlt : a.date < d
    · simp [hge, hlt]
    · simp [hge, hlt]
  · simp [hge]

theorem histValues_perm {cs cs' : List CRec} (p : cs.Perm cs') (d : ℚ) :
    (histValues cs d).Perm (histValues cs' d) :=
  (p.filter _).filterMap _

/-- The rank of a value at a date depends on the group only through the
multiset of records dated strictly before that date. -/
theorem rankFor_congr {cs cs' : List CRec} (d : ℚ) (v : Option ℚ)
    (p : (cs.filter (fun s => decide (s.date < d))).Perm
         (cs'.filter (fun s => decide (s.date < d)))) :
    rankFor cs d v = rankFor cs' d v := by
  have hperm : (histValues cs d).Perm (histValues cs' d) := by
    rw [← histValues_filter_lt cs d, ← histValues_filter_lt cs' d]
    exact histValues_perm p d
  by_cases hnil : histValues cs d = []
  · have hnil2 : histValues cs' d = [] := by
      rw [hnil] at hperm
      exact hperm.symm.eq_nil
    simp [rankFor, List.isEmpty_iff, hnil, hnil2]
  · have hnil2 : histValues cs' d ≠ [] := by
      intro h
      rw [h] at hperm
      exact hnil hperm.eq_nil
    simp only [rankFor, List.isEmpty_iff]
    rw [if_neg hnil, if_neg hnil2]
    cases v with
    | none => rfl
    | some q =>
      simp only [Option.map_some']
      rw [percentileOfScoreWeak_perm hperm]

/-- Characterization of the ratio computation: NaN exactly when the net
position or the open interest is NaN, or the open interest is zero. -/
theorem netPositionPct_eq_none (n o : Option ℚ) :
    netPositionPct n o = none ↔ n = none ∨ o = none ∨ o = some 0 := by
  cases n with
  | none => simp [netPositionPct, PFloat.ofOpt, PFloat.div, PFloat.mul100,
      replaceInfWithNan, PFloat.toOpt]
  | some a =>
    cases o with
    | none => simp [netPositionPct, PFloat.ofOpt, PFloat.div, PFloat.mul100,
        replaceInfWithNan, PFloat.toOpt]
    | some b =>
      by_cases hb : b = 0
      · subst hb
        rcases lt_trichotomy a 0 with hneg | hzero | hpos
        · simp [netPositionPct, PFloat.ofOpt, PFloat.div, PFloat.mul100,
            replaceInfWithNan, PFloat.toOpt, hneg, not_lt_of_lt hneg]
        · subst hzero
          simp [netPositionPct, PFloat.ofOpt, PFloat.div, PFloat.mul100,
            replaceInfWithNan, PFloat.toOpt]
        · simp [netPositionPct, PFloat.ofOpt, PFloat.div, PFloat.mul100,
            replaceInfWithNan, PFloat.toOpt, hpos]
      · simp [netPositionPct, PFloat.ofOpt, PFloat.div, PFloat.mul100,
          replaceInfWithNan, PFloat.toOpt, hb]

/-- The finite value of the ratio when everything is defined and the open
interest is nonzero. -/
theorem netPositionPct_some (a b : ℚ) (hb : b ≠ 0) :
    netPositionPct (some a) (some b) = some (a / b * 100) := by
  simp [netPositionPct, PFloat.ofOpt, PFloat.div, PFloat.mul100,
    replaceInfWithNan, PFloat.toOpt, hb]

/-- After line 97 no infinity survives. -/
theorem replaceInfWithNan_ne_inf (x : PFloat) :
    replaceInfWithNan x ≠ PFloat.posInf ∧ replaceInfWithNan x ≠ PFloat.negInf := by
  cases x <;> simp [replaceInfWithNan]

/-! ### The alert summary view (lines 16-21, 142-145) -/

/-- pandas GroupBy.last on one column: the last non-null entry. -/
def lastNonNullQ (l : List (Option ℚ)) : Option ℚ := (l.filterMap id).getLast?

/-- One row of the latest_alerts frame of line 145. -/
structure SummaryRow where
  instrument : String
  date : Option ℚ
  pct : Option ℚ
  rank : Option ℚ
  alert : Option Alert
  trend : Option Trend
deriving DecidableEq

/-- Line 145 for one instrument group, given in row order: GroupBy.last takes,
per column independently, the last non-null entry of the group.  The date,
alert and trend columns never hold nulls, so for them this is the value of the
last row. -/
def summaryRowOf (id : String) (g : List ProcRec) : SummaryRow :=
  { instrument := id,
    date := (g.map (fun r => r.date)).getLast?,
    pct := lastNonNullQ (g.map (fun r => r.pct)),
    rank := lastNonNullQ (g.map (fun r => r.rank)),
    alert := (g.map (fun r => r.alert)).getLast?,
    trend := (g.map (fun r => r.trend)).getLast? }

/-- Line 145: one summary row per instrument occurring in the input. -/
def latestAlerts (l : List ProcRec) : List SummaryRow :=
  ((l.map (fun r => r.instrument)).dedup).map
    (fun id => summaryRowOf id (l.filter (fun r => decide (r.instrument = id))))

/-- Line 16: years_back_current. -/
def yearsBackCurrent : ℤ := 1

/-- Python date.toordinal of January 1 of the given proleptic Gregorian year
(day 1 is January 1 of year 1). -/
def jan1Ordinal (y : ℤ) : ℤ :=
  365 * (y - 1) + (y - 1).fdiv 4 - (y - 1).fdiv 100 + (y - 1).fdiv 400 + 1

/-- Line 21: start_current = date(end.year - years_back_current, 1, 1), as an
ordinal number of days. -/
def startCurrent (endYear : ℤ) : ℚ := (jan1Ordinal (endYear - yearsBackCurrent) : ℚ)

/-- Line 142: the processed records restricted to report dates on or after
start_current. -/
def currentData (recs : List RawRec) (endYear : ℤ) : List ProcRec :=
  (processAll recs).filter (fun r => decide (startCurrent endYear ≤ r.date))

/-! ### Membership lemmas connecting raw records to processed records -/

theorem map_instDate_deriveRows (cs all : List CRec) (prior : Option ℚ) :
    (deriveRows cs all prior).map (fun p => (p.instrument, p.date)) =
      cs.map (fun c => (c.instrument, c.date)) := by
  induction cs generalizing prior with
  | nil => rfl
  | cons c rest ih => simp [deriveRows, mkRow, ih]

theorem exists_mem_processGroup_iff (g : List RawRec) (P : String → ℚ → Prop) :
    (∃ p ∈ processGroup g, P p.instrument p.date) ↔ ∃ r ∈ g, P r.instrument r.date := by
  have key : ((processGroup g).map (fun p => (p.instrument, p.date))).Perm
      (g.map (fun r => (r.instrument, r.date))) := by
    unfold processGroup
    rw [map_instDate_deriveRows]
    have hperm : (sortedGroup g).Perm (g.map coerceRec) :=
      List.perm_insertionSort _ _
    have := hperm.map (fun c => (c.instrument, c.date))
    rw [List.map_map] at this
    exact this
  constructor
  · rintro ⟨p, hp, hP⟩
    have hmem : (p.instrument, p.date) ∈ (processGroup g).map (fun p => (p.instrument, p.date)) :=
      List.mem_map_of_mem _ hp
    rw [key.mem_iff] at hmem
    rcases List.mem_map.mp hmem with ⟨r, hr, hEq⟩
    refine ⟨r, hr, ?_⟩
    have h1 : r.instrument = p.instrument := congrArg Prod.fst hEq
    have h2 : r.date = p.date := congrArg Prod.snd hEq
    rw [h1, h2]; exact hP
  · rintro ⟨r, hr, hP⟩
    have hmem : (r.instrument, r.date) ∈ g.map (fun r => (r.instrument, r.date)) :=
      List.mem_map_of_mem _ hr
    rw [← key.mem_iff] at hmem
    rcases List.mem_map.mp hmem with ⟨p, hp, hEq⟩
    refine ⟨p, hp, ?_⟩
    have h1 : p.instrument = r.instrument := congrArg Prod.fst hEq
    have h2 : p.date = r.date := congrArg Prod.snd hEq
    rw [h1, h2]; exact hP

theorem exists_mem_processAll_iff (recs : List RawRec) (P : String → ℚ → Prop) :
    (∃ p ∈ processAll recs, P p.instrument p.date) ↔
      ∃ r ∈ recs, P r.instrument r.date := by
  constructor
  · rintro ⟨p, hp, hP⟩
    rcases List.mem_flatten.mp hp with ⟨L, hL, hpL⟩
    rcases List.mem_map.mp hL with ⟨id, _, hLeq⟩
    subst hLeq
    have : ∃ q ∈ processGroup (recs.filter (fun r => decide (r.instrument = id))),
        P q.instrument q.date := ⟨p, hpL, hP⟩
    rcases (exists_mem_processGroup_iff _ P).mp this with ⟨r, hr, hPr⟩
    exact ⟨r, (List.mem_filter.mp hr).1, hPr⟩
  · rintro ⟨r, hr, hP⟩
    have hid : r.instrument ∈ (recs.map (fun r => r.instrument)).dedup :=
      List.mem_dedup.mpr (List.mem_map_of_mem _ hr)
    have hrg : r ∈ recs.filter (fun s => decide (s.instrument = r.instrument)) :=
      List.mem_filter.mpr ⟨hr, by simp⟩
    rcases (exists_mem_processGroup_iff
        (recs.filter (fun s => decide (s.instrument = r.instrument))) P).mpr
        ⟨r, hrg, hP⟩ with ⟨p, hp, hPp⟩
    refine ⟨p, ?_, hPp⟩
    exact List.mem_flatten.mpr
      ⟨processGroup (recs.filter (fun s => decide (s.instrument = r.instrument))),
       List.mem_map_of_mem _ hid, hp⟩

theorem latestAlerts_instrument_iff (l : List ProcRec) (id : String) :
    (∃ row ∈ latestAlerts l, row.instrument = id) ↔ ∃ r ∈ l, r.instrument = id := by
  constructor
  · rintro ⟨row, hrow, hid⟩
    rcases List.mem_map.mp hrow with ⟨id2, hid2, hEq⟩
    have : row.instrument = id2 := by rw [← hEq]; rfl
    rw [this] at hid
    subst hid
    rcases List.mem_map.mp (List.mem_dedup.mp hid2) with ⟨r, hr, hEq2⟩
    exact ⟨r, hr, hEq2⟩
  · rintro ⟨r, hr, hid⟩
    have hmem : id ∈ (l.map (fun r => r.instrument)).dedup := by
      apply List.mem_dedup.mpr
      rw [← hid]
      exact List.mem_map_of_mem _ hr
    exact ⟨summaryRowOf id (l.filter (fun r => decide (r.instrument = id))),
      List.mem_map_of_mem _ hmem, rfl⟩

/-- When the last entry of a column is non-null, GroupBy.last returns it. -/
theorem lastNonNullQ_of_getLast (l : List (Option ℚ)) (a : ℚ)
    (h : l.getLast? = some (some a)) : lastNonNullQ l = some a := by
  induction l with
  | nil => simp at h
  | cons x t ih =>
    cases t with
    | nil =>
      simp only [List.getLast?_singleton, Option.some.injEq] at h
      subst h
      rfl
    | cons y t2 =>
      rw [List.getLast?_cons_cons] at h
      have ht := ih h
      rw [lastNonNullQ] at ht
      cases x with
      | none => simpa [lastNonNullQ, List.filterMap_cons] using ht
      | some v =>
        rw [lastNonNullQ, List.filterMap_cons]
        simp only [id]
        cases hfm : List.filterMap id (y :: t2) with
        | nil => rw [hfm] at ht; simp at ht
        | cons z t3 =>
          rw [hfm] at ht
          rw [List.getLast?_cons_cons]
          exact ht

/-- In a list sorted ascending, every element is at most the last one. -/
theorem le_getLast_of_sorted (l : List ℚ) (h : l.Sorted (fun a b => a ≤ b))
    (hne : l ≠ []) : ∀ x ∈ l, x ≤ l.getLast hne := by
  induction l with
  | nil => simp
  | cons a t ih =>
    intro x hx
    cases t with
    | nil =>
      rcases List.mem_singleton.mp hx with rfl
      rfl
    | cons b t2 =>
      rw [List.getLast_cons (List.cons_ne_nil b t2)]
      rcases List.mem_cons.mp hx with rfl | hx2
      · have hmem : (b :: t2).getLast (List.cons_ne_nil b t2) ∈ b :: t2 :=
          List.getLast_mem _
        exact (List.sorted_cons.mp h).1 _ hmem
      · exact ih (List.sorted_cons.mp h).2 (List.cons_ne_nil b t2) x hx2

/-- The record at an index of the engine output, expressed through mkRow. -/
theorem processGroup_get (g : List RawRec) (i : ℕ) (hi : i < (processGroup g).length)
    (h2 : i < (sortedGroup g).length)
    (h3 : i < (none :: (sortedGroup g).map (fun c => c.pct)).length) :
    (processGroup g).get ⟨i, hi⟩ =
      mkRow ((sortedGroup g).get ⟨i, h2⟩) (sortedGroup g)
        ((none :: (sortedGroup g).map (fun c => c.pct)).get ⟨i, h3⟩) :=
  deriveRows_get _ _ _ i hi h2 h3

theorem sortedGroup_length_of_processGroup {g : List RawRec} {i : ℕ}
    (hi : i < (processGroup g).length) : i < (sortedGroup g).length := by
  rw [← length_deriveRows (sortedGroup g) (sortedGroup g) none]
  exact hi

theorem prior_length_of_processGroup {g : List RawRec} {i : ℕ}
    (hi : i < (processGroup g).length) :
    i < (none :: (sortedGroup g).map (fun c => c.pct)).length := by
  have := sortedGroup_length_of_processGroup hi
  simp only [List.length_cons, List.length_map]
  omega

/-! ### Claims -/

/-- C1: for every record whose current ratio is non-null and whose trailing
window holds at least one non-null historical ratio, the engine percentile
rank equals the weak (tie-inclusive) percentile score
100 * count(historical <= current) / count(historical); in particular, for the
history [1, 1, 1, 1] and the current value 1 the score is exactly 100. -/
theorem claim1_weak_percentile (g : List RawRec) (i : ℕ)
    (hi : i < (processGroup g).length) (v : ℚ)
    (hv : ((processGroup g).get ⟨i, hi⟩).pct = some v)
    (hh : histValues (sortedGroup g) ((processGroup g).get ⟨i, hi⟩).date ≠ []) :
    ((processGroup g).get ⟨i, hi⟩).rank =
      some (100 * ((histValues (sortedGroup g)
            ((processGroup g).get ⟨i, hi⟩).date).countP (fun w => decide (w ≤ v)) : ℚ) /
          ((histValues (sortedGroup g) ((processGroup g).get ⟨i, hi⟩).date).length : ℚ))
    ∧ percentileOfScoreWeak [1, 1, 1, 1] 1 = 100 := by
  constructor
  · rw [processGroup_get g i hi (sortedGroup_length_of_processGroup hi)
      (prior_length_of_processGroup hi)] at hv hh ⊢
    simp only [mkRow, List.get_eq_getElem] at hv hh ⊢
    simp [rankFor, List.isEmpty_iff, hh, hv, percentileOfScoreWeak]
  · norm_num [percentileOfScoreWeak, List.countP_cons]

/-- Concrete input for the C1 witness: two same-instrument records one day
apart, so that the second has the first as its only historical value. -/
def w1Recs : List RawRec :=
  [ { instrument := "X", date := 0, long := .num 10, short := .num 4, oi := .num 100 },
    { instrument := "X", date := 1, long := .num 1, short := .num 0, oi := .num 100 } ]

theorem claim1_weak_percentile_witness :
    (∃ hi : 1 < (processGroup w1Recs).length,
      ((processGroup w1Recs).get ⟨1, hi⟩).rank = some 0)
    ∧ percentileOfScoreWeak [1, 1, 1, 1] 1 = 100 := by
  have hlen : 1 < (processGroup w1Recs).length := by
    rw [length_processGroup]; norm_num [w1Recs]
  have hv : ((processGroup w1Recs).get ⟨1, hlen⟩).pct = some 1 := by
    norm_num [w1Recs, processGroup, sortedGroup, deriveRows, mkRow, coerceRec, toNumeric,
      netPosition, netPositionPct, PFloat.ofOpt, PFloat.div, PFloat.mul100, replaceInfWithNan,
      PFloat.toOpt, List.insertionSort, List.orderedInsert]
  have hh : histValues (sortedGroup w1Recs)
      ((processGroup w1Recs).get ⟨1, hlen⟩).date ≠ [] := by
    norm_num [w1Recs, processGroup, sortedGroup, deriveRows, mkRow, coerceRec, toNumeric,
      netPosition, netPositionPct, PFloat.ofOpt, PFloat.div, PFloat.mul100, replaceInfWithNan,
      PFloat.toOpt, List.insertionSort, List.orderedInsert, histValues, historyStartDate,
      yearsBackHistory, daysPerYear, List.filter_cons, List.filterMap_cons]
  have happ := claim1_weak_percentile w1Recs 1 hlen 1 hv hh
  refine ⟨⟨hlen, ?_⟩, happ.2⟩
  rw [happ.1]
  norm_num [w1Recs, processGroup, sortedGroup, deriveRows, mkRow, coerceRec, toNumeric,
    netPosition, netPositionPct, PFloat.ofOpt, PFloat.div, PFloat.mul100, replaceInfWithNan,
    PFloat.toOpt, List.insertionSort, List.orderedInsert, histValues, historyStartDate,
    yearsBackHistory, daysPerYear, List.filter_cons, List.filterMap_cons, List.countP_cons]

/-- C2: no look-ahead.  The engine rank of a record is rankFor of its group, a
function whose value depends only on the multiset of group records dated
strictly before the record (so replacing the records dated after it by any
others, or dropping them, never changes the rank), and in fact only on the
records inside the trailing window [date - window, date). -/
theorem claim2_no_lookahead :
    (∀ (g : List RawRec) (i : ℕ) (hi : i < (processGroup g).length),
      ((processGroup g).get ⟨i, hi⟩).rank =
        rankFor (sortedGroup g) ((processGroup g).get ⟨i, hi⟩).date
          ((processGroup g).get ⟨i, hi⟩).pct)
    ∧ (∀ (cs cs' : List CRec) (d : ℚ) (v : Option ℚ),
        (cs.filter (fun s => decide (s.date < d))).Perm
          (cs'.filter (fun s => decide (s.date < d))) →
        rankFor cs d v = rankFor cs' d v)
    ∧ (∀ (cs fut fut' : List CRec) (d : ℚ) (v : Option ℚ),
        (∀ r ∈ fut, d < r.date) → (∀ r ∈ fut', d < r.date) →
        rankFor (cs ++ fut) d v = rankFor (cs ++ fut') d v)
    ∧ (∀ (cs : List CRec) (d : ℚ) (v : Option ℚ),
        rankFor cs d v =
          rankFor (cs.filter (fun s => decide (historyStartDate d ≤ s.date) &&
            decide (s.date < d))) d v) := by
  refine ⟨?_, ?_, ?_, ?_⟩
  · intro g i hi
    rw [processGroup_get g i hi (sortedGroup_length_of_processGroup hi)
      (prior_length_of_processGroup hi)]
    rfl
  · intro cs cs' d v hp
    exact rankFor_congr d v hp
  · intro cs fut fut' d v hf hf'
    apply rankFor_congr
    rw [List.filter_append, List.filter_append]
    have h1 : List.filter (fun s => decide (s.date < d)) fut = [] := by
      apply List.filter_eq_nil_iff.mpr
      intro a ha
      simp only [decide_eq_true_eq, not_lt]
      exact le_of_lt (hf a ha)
    have h2 : List.filter (fun s => decide (s.date < d)) fut' = [] := by
      apply List.filter_eq_nil_iff.mpr
      intro a ha
      simp only [decide_eq_true_eq, not_lt]
      exact le_of_lt (hf' a ha)
    rw [h1, h2]
  · intro cs d v
    simp only [rankFor, histValues_filter_window]

/-- Concrete records for the C2 witness. -/
def w2Recs : List RawRec :=
  [ { instrument := "X", date := 0, long := .num 10, short := .num 4, oi := .num 100 } ]

/-- A concrete coerced record dated before day 5. -/
def w2Past : CRec :=
  { instrument := "X", date := 0, long := some 10, short := some 4, oi := some 100,
    net := some 6, pct := some 6 }

/-- A concrete coerced record dated after day 5. -/
def w2Fut : CRec :=
  { instrument := "X", date := 9, long := some 1, short := some 0, oi := some 100,
    net := some 1, pct := some 1 }

theorem claim2_no_lookahead_witness :
    (∃ hi : 0 < (processGroup w2Recs).length,
      ((processGroup w2Recs).get ⟨0, hi⟩).rank =
        rankFor (sortedGroup w2Recs) ((processGroup w2Recs).get ⟨0, hi⟩).date
          ((processGroup w2Recs).get ⟨0, hi⟩).pct)
    ∧ rankFor [w2Past] 5 (some 1) = rankFor [w2Past, w2Fut] 5 (some 1)
    ∧ rankFor ([w2Past] ++ [w2Fut]) 5 (some 1) = rankFor ([w2Past] ++ []) 5 (some 1)
    ∧ rankFor [w2Past, w2Fut] 5 (some 1) =
        rankFor (List.filter (fun s => decide (historyStartDate 5 ≤ s.date) &&
          decide (s.date < 5)) [w2Past, w2Fut]) 5 (some 1) := by
  obtain ⟨c1, c2, c3, c4⟩ := claim2_no_lookahead
  have hlen : 0 < (processGroup w2Recs).length := by
    rw [length_processGroup]; norm_num [w2Recs]
  have hfilter1 : List.filter (fun s => decide (s.date < (5:ℚ))) [w2Past] = [w2Past] := by
    norm_num [w2Past, List.filter_cons]
  have hfilter2 : List.filter (fun s => decide (s.date < (5:ℚ))) [w2Past, w2Fut] = [w2Past] := by
    norm_num [w2Past, w2Fut, List.filter_cons]
  refine ⟨⟨hlen, c1 w2Recs 0 hlen⟩, ?_, ?_, ?_⟩
  · apply c2
    rw [hfilter1, hfilter2]
  · apply c3
    · intro r hr
      rcases List.mem_singleton.mp hr with rfl
      norm_num [w2Fut]
    · intro r hr
      simp at hr
  · exact c4 [w2Past, w2Fut] 5 (some 1)

/-- C3: alert classification.  The engine alert of every record is
classifyAlert of its rank at the hard-coded thresholds 90 and 10, and
classifyAlert satisfies, whenever oversold < overbought: Overbought iff the
rank is non-null and at least the overbought threshold, Oversold iff non-null
and at most the oversold threshold, Neutral otherwise, a null rank always
Neutral, and no rank value can satisfy both threshold conditions at once. -/
theorem claim3_alert_classification :
    (∀ (g : List RawRec) (i : ℕ) (hi : i < (processGroup g).length),
      ((processGroup g).get ⟨i, hi⟩).alert =
        classifyAlert ((processGroup g).get ⟨i, hi⟩).rank
          overboughtThreshold oversoldThreshold)
    ∧ overboughtThreshold = 90
    ∧ oversoldThreshold = 10
    ∧ (∀ (rank : Option ℚ) (ob os : ℚ), os < ob →
        ((classifyAlert rank ob os = Alert.overbought ↔ ∃ q, rank = some q ∧ ob ≤ q)
         ∧ (classifyAlert rank ob os = Alert.oversold ↔ ∃ q, rank = some q ∧ q ≤ os)
         ∧ (classifyAlert rank ob os = Alert.neutral ↔
             ∀ q, rank = some q → ¬ob ≤ q ∧ ¬q ≤ os)
         ∧ classifyAlert none ob os = Alert.neutral
         ∧ ∀ q : ℚ, ¬(ob ≤ q ∧ q ≤ os))) := by
  refine ⟨?_, rfl, rfl, ?_⟩
  · intro g i hi
    rw [processGroup_get g i hi (sortedGroup_length_of_processGroup hi)
      (prior_length_of_processGroup hi)]
    rfl
  · intro rank ob os hoo
    have hnb : ∀ q : ℚ, ¬(ob ≤ q ∧ q ≤ os) := by
      rintro q ⟨hq1, hq2⟩
      exact absurd (le_trans hq1 hq2) (not_le_of_lt hoo)
    cases rank with
    | none =>
      refine ⟨by simp [classifyAlert], by simp [classifyAlert], by simp [classifyAlert],
        by simp [classifyAlert], hnb⟩
    | some q =>
      by_cases hos : q ≤ os
      · have hob : ¬ob ≤ q := fun h => hnb q ⟨h, hos⟩
        refine ⟨?_, ?_, ?_, by simp [classifyAlert], hnb⟩
        · simp [classifyAlert, hos, hob]
        · simp [classifyAlert, hos]
        · simp [classifyAlert, hos, hob]
      · by_cases hob : ob ≤ q
        · refine ⟨?_, ?_, ?_, by simp [classifyAlert], hnb⟩
          · simp [classifyAlert, hos, hob]
          · simp [classifyAlert, hos, hob]
          · simp [classifyAlert, hos, hob]
        · refine ⟨?_, ?_, ?_, by simp [classifyAlert], hnb⟩
          · simp [classifyAlert, hos, hob]
          · simp [classifyAlert, hos, hob]
          · simp only [classifyAlert, if_neg hos, if_neg hob]
            constructor
            · intro _ p hp
              rcases Option.some.inj hp with rfl
              exact ⟨hob, hos⟩
            · intro _
              trivial

/-- Concrete record for the C3 witness: a single record, whose rank is null
(no history), classified Neutral. -/
def w3Recs : List RawRec :=
  [ { instrument := "X", date := 0, long := .num 10, short := .num 4, oi := .num 100 } ]

theorem claim3_alert_classification_witness :
    (∃ hi : 0 < (processGroup w3Recs).length,
      ((processGroup w3Recs).get ⟨0, hi⟩).alert =
        classifyAlert ((processGroup w3Recs).get ⟨0, hi⟩).rank
          overboughtThreshold oversoldThreshold)
    ∧ (classifyAlert (some 95) 90 10 = Alert.overbought ↔ ∃ q, (some 95 : Option ℚ) = some q ∧ 90 ≤ q)
    ∧ classifyAlert none 90 10 = Alert.neutral := by
  obtain ⟨c1, _, _, c4⟩ := claim3_alert_classification
  have hlen : 0 < (processGroup w3Recs).length := by
    rw [length_processGroup]; norm_num [w3Recs]
  have h4 := c4 (some 95) 90 10 (by norm_num)
  have h5 := c4 (none : Option ℚ) 90 10 (by norm_num)
  exact ⟨⟨hlen, c1 w3Recs 0 hlen⟩, h4.1, h5.2.2.2.1⟩

/-! ### Characterization of the trend column -/

theorem trendOf_eq_up (cur prior : Option ℚ) :
    trendOf cur prior = Trend.up ↔ ∃ a b, cur = some a ∧ prior = some b ∧ b < a := by
  cases cur with
  | none => simp [trendOf]
  | some a =>
    cases prior with
    | none => simp [trendOf]
    | some b =>
      by_cases h : b < a
      · simp [trendOf, h]
      · by_cases h2 : a < b <;> simp [trendOf, h, h2]

theorem trendOf_eq_down (cur prior : Option ℚ) :
    trendOf cur prior = Trend.down ↔ ∃ a b, cur = some a ∧ prior = some b ∧ a < b := by
  cases cur with
  | none => simp [trendOf]
  | some a =>
    cases prior with
    | none => simp [trendOf]
    | some b =>
      by_cases h : b < a
      · simp [trendOf, h]
        exact le_of_lt h
      · by_cases h2 : a < b <;> simp [trendOf, h, h2]

theorem trendOf_eq_flat (cur prior : Option ℚ) :
    trendOf cur prior = Trend.flat ↔
      trendOf cur prior ≠ Trend.up ∧ trendOf cur prior ≠ Trend.down := by
  cases h : trendOf cur prior <;> simp

/-- C5: within an instrument group sorted by date, the first record's trend is
Flat/Unknown; each later record's trend equals trendOf of its ratio and the
immediately prior record's ratio, which is Up exactly when both are non-null
with the current strictly greater, Down exactly when both are non-null with
the current strictly smaller, and Flat/Unknown in every remaining case. -/
theorem claim5_trend :
    (∀ (g : List RawRec) (hne : 0 < (processGroup g).length),
      ((processGroup g).get ⟨0, hne⟩).trend = Trend.flat)
    ∧ (∀ (g : List RawRec) (j : ℕ) (hj1 : j + 1 < (processGroup g).length)
        (hj : j < (processGroup g).length),
        ((processGroup g).get ⟨j + 1, hj1⟩).trend =
          trendOf ((processGroup g).get ⟨j + 1, hj1⟩).pct
            ((processGroup g).get ⟨j, hj⟩).pct)
    ∧ (∀ cur prior : Option ℚ,
        trendOf cur prior = Trend.up ↔ ∃ a b, cur = some a ∧ prior = some b ∧ b < a)
    ∧ (∀ cur prior : Option ℚ,
        trendOf cur prior = Trend.down ↔ ∃ a b, cur = some a ∧ prior = some b ∧ a < b)
    ∧ (∀ cur prior : Option ℚ,
        trendOf cur prior = Trend.flat ↔
          ¬(∃ a b, cur = some a ∧ prior = some b ∧ b < a)
          ∧ ¬(∃ a b, cur = some a ∧ prior = some b ∧ a < b)) := by
  refine ⟨?_, ?_, trendOf_eq_up, trendOf_eq_down, ?_⟩
  · intro g hne
    rw [processGroup_get g 0 hne (sortedGroup_length_of_processGroup hne)
      (prior_length_of_processGroup hne)]
    simp only [mkRow]
    have : (none :: (sortedGroup g).map (fun c => c.pct)).get
        ⟨0, prior_length_of_processGroup hne⟩ = none := rfl
    rw [this]
    cases ((sortedGroup g).get ⟨0, sortedGroup_length_of_processGroup hne⟩).pct <;> rfl
  · intro g j hj1 hj
    rw [processGroup_get g (j + 1) hj1 (sortedGroup_length_of_processGroup hj1)
      (prior_length_of_processGroup hj1),
      processGroup_get g j hj (sortedGroup_length_of_processGroup hj)
      (prior_length_of_processGroup hj)]
    simp only [mkRow]
    congr 1
    simp only [List.get_eq_getElem, List.getElem_cons_succ, List.getElem_map]
  · intro cur prior
    rw [trendOf_eq_flat, ← trendOf_eq_up, ← trendOf_eq_down]

/-- Concrete records for the C5 witness: ratios 6 then 20, so the second
record trends Up. -/
def w5Recs : List RawRec :=
  [ { instrument := "X", date := 0, long := .num 10, short := .num 4, oi := .num 100 },
    { instrument := "X", date := 1, long := .num 20, short := .num 0, oi := .num 100 } ]

theorem claim5_trend_witness :
    (∃ hne : 0 < (processGroup w5Recs).length,
      ((processGroup w5Recs).get ⟨0, hne⟩).trend = Trend.flat)
    ∧ (∃ hj1 : 1 < (processGroup w5Recs).length, ∃ hj : 0 < (processGroup w5Recs).length,
      ((processGroup w5Recs).get ⟨1, hj1⟩).trend =
        trendOf ((processGroup w5Recs).get ⟨1, hj1⟩).pct
          ((processGroup w5Recs).get ⟨0, hj⟩).pct)
    ∧ (trendOf (some 20) (some 6) = Trend.up ↔
        ∃ a b, (some 20 : Option ℚ) = some a ∧ (some 6 : Option ℚ) = some b ∧ b < a) := by
  obtain ⟨c1, c2, c3, _, _⟩ := claim5_trend
  have hlen1 : 1 < (processGroup w5Recs).length := by
    rw [length_processGroup]; norm_num [w5Recs]
  have hlen0 : 0 < (processGroup w5Recs).length := by omega
  exact ⟨⟨hlen0, c1 w5Recs hlen0⟩, ⟨hlen1, hlen0, c2 w5Recs 0 hlen1 hlen0⟩,
    c3 (some 20) (some 6)⟩

/-- C7: totality.  The engine maps every input list, malformed fields
included, to an output of the same length; non-numeric and missing fields
coerce to null; coercion is exactly what the output carries for the three
numeric columns; and a record whose ratio is null is transparently skipped by
the percentile computation of every other record. -/
theorem claim7_totality :
    (∀ g : List RawRec, (processGroup g).length = g.length)
    ∧ toNumeric RawField.nonNumeric = none
    ∧ toNumeric RawField.null = none
    ∧ (∀ r : RawRec, (coerceRec r).long = toNumeric r.long ∧
        (coerceRec r).short = toNumeric r.short ∧ (coerceRec r).oi = toNumeric r.oi)
    ∧ (∀ (cs : List CRec) (d : ℚ) (v : Option ℚ) (bad : CRec), bad.pct = none →
        rankFor (bad :: cs) d v = rankFor cs d v) := by
  refine ⟨length_processGroup, rfl, rfl, fun r => ⟨rfl, rfl, rfl⟩, ?_⟩
  intro cs d v bad hbad
  have hhv : histValues (bad :: cs) d = histValues cs d := by
    unfold histValues
    rw [List.filter_cons]
    by_cases hp : (decide (historyStartDate d ≤ bad.date) && decide (bad.date < d)) = true
    · simp [hp, List.filterMap_cons, hbad]
    · simp [hp]
  simp only [rankFor, hhv]

/-- A concrete record with a malformed numeric field, for the C7 witness. -/
def w7Recs : List RawRec :=
  [ { instrument := "X", date := 0, long := .nonNumeric, short := .num 4, oi := .num 100 } ]

/-- A concrete coerced record with a null ratio, for the C7 witness. -/
def w7Bad : CRec :=
  { instrument := "X", date := 0, long := none, short := some 4, oi := some 100,
    net := none, pct := none }

theorem claim7_totality_witness :
    (processGroup w7Recs).length = 1
    ∧ rankFor [w7Bad] 5 (some 1) = rankFor [] 5 (some 1) := by
  constructor
  · rw [claim7_totality.1 w7Recs]; rfl
  · exact claim7_totality.2.2.2.2 [] 5 (some 1) w7Bad rfl

/-- C8: monotonicity of the weak percentile score: against any fixed non-empty
historical window, a strictly larger current value receives a rank at least as
large. -/
theorem claim8_percentile_monotone (hist : List ℚ) (A B : ℚ) (hne : hist ≠ [])
    (hAB : B < A) : percentileOfScoreWeak hist B ≤ percentileOfScoreWeak hist A := by
  unfold percentileOfScoreWeak
  have hc : hist.countP (fun v => decide (v ≤ B)) ≤ hist.countP (fun v => decide (v ≤ A)) := by
    apply List.countP_mono_left
    intro x _ hxB
    simp only [decide_eq_true_eq] at hxB ⊢
    exact le_trans hxB (le_of_lt hAB)
  have hcq : (hist.countP (fun v => decide (v ≤ B)) : ℚ) ≤
      (hist.countP (fun v => decide (v ≤ A)) : ℚ) := by exact_mod_cast hc
  gcongr

theorem claim8_percentile_monotone_witness :
    percentileOfScoreWeak [1, 2] 1 ≤ percentileOfScoreWeak [1, 2] 2 :=
  claim8_percentile_monotone [1, 2] 2 1 (by simp) (by norm_num)

/-- C9: the trailing window.  The window constant is 3 * 365.25 = 1095.75
days; the historical population consists of the non-null ratios of records
dated in the half-open interval [d - 1095.75, d): a record dated exactly
1095.75 days before the current one satisfies the window predicate (inclusive
left boundary), while a record dated at the current date does not (exclusive
right boundary). -/
theorem claim9_trailing_window :
    yearsBackHistory * daysPerYear = 1095.75
    ∧ (∀ d : ℚ, historyStartDate d = d - 1095.75)
    ∧ (∀ (cs : List CRec) (d : ℚ), histValues cs d =
        (cs.filter (fun s => decide (d - 1095.75 ≤ s.date) &&
          decide (s.date < d))).filterMap (fun c => c.pct))
    ∧ (∀ d : ℚ, (decide (historyStartDate d ≤ d - 1095.75) &&
        decide (d - 1095.75 < d)) = true)
    ∧ (∀ d : ℚ, (decide (historyStartDate d ≤ d) && decide (d < d)) = false) := by
  have hconst : yearsBackHistory * daysPerYear = (1095.75 : ℚ) := by
    norm_num [yearsBackHistory, daysPerYear]
  have hstart : ∀ d : ℚ, historyStartDate d = d - 1095.75 := fun d => by
    rw [historyStartDate, hconst]
  refine ⟨hconst, hstart, ?_, ?_, ?_⟩
  · intro cs d
    unfold histValues
    congr 1
    apply List.filter_congr
    intro a _
    rw [hstart]
  · intro d
    rw [hstart]
    simp only [Bool.and_eq_true, decide_eq_true_eq]
    constructor
    · exact le_refl _
    · linarith
  · intro d
    simp [lt_irrefl]

/-! ### The ratio nullability claim -/

theorem netPosition_eq_none (l s : Option ℚ) :
    netPosition l s = none ↔ l = none ∨ s = none := by
  cases l <;> cases s <;> simp [netPosition]

theorem mem_sortedGroup {g : List RawRec} {c : CRec} (hc : c ∈ sortedGroup g) :
    ∃ r ∈ g, c = coerceRec r := by
  have hperm : (sortedGroup g).Perm (g.map coerceRec) := List.perm_insertionSort _ _
  rcases List.mem_map.mp (hperm.mem_iff.mp hc) with ⟨r, hr, hEq⟩
  exact ⟨r, hr, hEq.symm⟩

/-- A single raw record on which the ratio is null although the open interest
is numeric and nonzero: its long-positions field is non-numeric. -/
def c4Rec : RawRec :=
  { instrument := "X", date := 0, long := .nonNumeric, short := .num 4, oi := .num 50 }

/-- C4 counterexample: the claimed equivalence (ratio null iff open interest
null, zero or non-numeric) fails on a record whose open interest is the
numeric value 50 but whose long-positions field is non-numeric: the engine
ratio is null all the same. -/
theorem claim4_ratio_null_counterexample :
    ∃ hi : 0 < (processGroup [c4Rec]).length,
      ¬(((processGroup [c4Rec]).get ⟨0, hi⟩).pct = none ↔
          (toNumeric c4Rec.oi = none ∨ toNumeric c4Rec.oi = some 0)) := by
  have hlen : 0 < (processGroup [c4Rec]).length := by
    rw [length_processGroup]; norm_num
  refine ⟨hlen, ?_⟩
  have hpct : ((processGroup [c4Rec]).get ⟨0, hlen⟩).pct = none := by
    norm_num [c4Rec, processGroup, sortedGroup, deriveRows, mkRow, coerceRec, toNumeric,
      netPosition, netPositionPct, PFloat.ofOpt, PFloat.div, PFloat.mul100,
      replaceInfWithNan, PFloat.toOpt, List.insertionSort, List.orderedInsert]
  rw [hpct]
  norm_num [c4Rec, toNumeric]
  simp

/-- C4 amended: a record's ratio is null exactly when the coerced open
interest is null or zero, or the coerced long- or short-positions field is
null (the latter covering non-numeric and missing inputs); in particular a
zero open interest always yields a null ratio, and the infinity produced by
the division is always replaced, never surfaced. -/
theorem claim4_ratio_null_amended (g : List RawRec) (i : ℕ)
    (hi : i < (processGroup g).length) :
    (((processGroup g).get ⟨i, hi⟩).pct = none ↔
      ((processGroup g).get ⟨i, hi⟩).oi = none ∨
      ((processGroup g).get ⟨i, hi⟩).oi = some 0 ∨
      ((processGroup g).get ⟨i, hi⟩).long = none ∨
      ((processGroup g).get ⟨i, hi⟩).short = none)
    ∧ (((processGroup g).get ⟨i, hi⟩).oi = some 0 →
        ((processGroup g).get ⟨i, hi⟩).pct = none)
    ∧ (∀ x : PFloat, replaceInfWithNan x ≠ PFloat.posInf ∧
        replaceInfWithNan x ≠ PFloat.negInf) := by
  have hmem : (sortedGroup g).get ⟨i, sortedGroup_length_of_processGroup hi⟩ ∈
      sortedGroup g := List.get_mem _ _ _
  rcases mem_sortedGroup hmem with ⟨r, _, hEq⟩
  rw [processGroup_get g i hi (sortedGroup_length_of_processGroup hi)
    (prior_length_of_processGroup hi)]
  simp only [mkRow]
  rw [hEq]
  have hiff : (coerceRec r).pct = none ↔
      (coerceRec r).oi = none ∨ (coerceRec r).oi = some 0 ∨
      (coerceRec r).long = none ∨ (coerceRec r).short = none := by
    show netPositionPct (netPosition (toNumeric r.long) (toNumeric r.short))
        (toNumeric r.oi) = none ↔ _
    rw [netPositionPct_eq_none]
    have hnet := netPosition_eq_none (toNumeric r.long) (toNumeric r.short)
    constructor
    · rintro (hn | ho | hz)
      · rcases hnet.mp hn with hl | hs
        · exact Or.inr (Or.inr (Or.inl hl))
        · exact Or.inr (Or.inr (Or.inr hs))
      · exact Or.inl ho
      · exact Or.inr (Or.inl hz)
    · rintro (ho | hz | hl | hs)
      · exact Or.inr (Or.inl ho)
      · exact Or.inr (Or.inr hz)
      · exact Or.inl (hnet.mpr (Or.inl hl))
      · exact Or.inl (hnet.mpr (Or.inr hs))
  refine ⟨hiff, ?_, replaceInfWithNan_ne_inf⟩
  intro hz
  exact hiff.mpr (Or.inr (Or.inl hz))

/-- Concrete input for the C4 amended witness: a record with zero open
interest. -/
def w4Recs : List RawRec :=
  [ { instrument := "X", date := 0, long := .num 10, short := .num 4, oi := .num 0 } ]

theorem claim4_ratio_null_amended_witness :
    ∃ hi : 0 < (processGroup w4Recs).length,
      ((processGroup w4Recs).get ⟨0, hi⟩).pct = none := by
  have hlen : 0 < (processGroup w4Recs).length := by
    rw [length_processGroup]; norm_num [w4Recs]
  refine ⟨hlen, ?_⟩
  apply (claim4_ratio_null_amended w4Recs 0 hlen).2.1
  norm_num [w4Recs, processGroup, sortedGroup, deriveRows, mkRow, coerceRec, toNumeric,
    List.insertionSort, List.orderedInsert]

/-! ### The latest-per-instrument summary claim -/

/-- Raw records whose processing exhibits the GroupBy.last mixing: the
latest record (zero open interest) has a null ratio and a null rank, while the
middle record supplies the last non-null values of those columns. -/
def c6Recs : List RawRec :=
  [ { instrument := "X", date := 0, long := .num 10, short := .num 4, oi := .num 100 },
    { instrument := "X", date := 1, long := .num 20, short := .num 0, oi := .num 100 },
    { instrument := "X", date := 2, long := .num 10, short := .num 4, oi := .num 0 } ]

/-- C6 counterexample: the summary row for instrument X carries the maximum
report date 2 but the ratio value 20 of the earlier record dated 1, while the
unique processed record dated 2 has a null ratio — so the summary row is not
the record with the maximum report date taken as a whole. -/
theorem claim6_latest_counterexample :
    latestAlerts (processAll c6Recs) =
      [ { instrument := "X", date := some 2, pct := some 20, rank := some 100,
          alert := some Alert.neutral, trend := some Trend.flat } ]
    ∧ (processAll c6Recs).map (fun p => (p.date, p.pct)) =
        [(0, some 6), (1, some 20), (2, none)] := by
  constructor
  · norm_num [c6Recs, processAll, processGroup, sortedGroup, deriveRows, mkRow, coerceRec,
      toNumeric, netPosition, netPositionPct, PFloat.ofOpt, PFloat.div, PFloat.mul100,
      replaceInfWithNan, PFloat.toOpt, rankFor, histValues, percentileOfScoreWeak,
      historyStartDate, yearsBackHistory, daysPerYear, classifyAlert, overboughtThreshold,
      oversoldThreshold, trendOf, List.insertionSort, List.orderedInsert, List.dedup,
      List.pwFilter, List.countP_cons, List.filter_cons, List.filterMap_cons,
      latestAlerts, summaryRowOf, lastNonNullQ]
  · norm_num [c6Recs, processAll, processGroup, sortedGroup, deriveRows, mkRow, coerceRec,
      toNumeric, netPosition, netPositionPct, PFloat.ofOpt, PFloat.div, PFloat.mul100,
      replaceInfWithNan, PFloat.toOpt, rankFor, histValues, percentileOfScoreWeak,
      historyStartDate, yearsBackHistory, daysPerYear, classifyAlert, overboughtThreshold,
      oversoldThreshold, trendOf, List.insertionSort, List.orderedInsert, List.dedup,
      List.pwFilter, List.countP_cons, List.filter_cons, List.filterMap_cons]

/-- C6 amended: the summary row of an instrument is built per column: the
date, alert and trend columns come from the record with the maximum report
date of the group, while the numeric ratio and rank columns hold the last
non-null value of the group in date order; in particular the row equals the
max-date record whenever that record's ratio and rank are both non-null. -/
theorem claim6_latest_amended (l : List ProcRec) (id : String) (g : List ProcRec)
    (hg : g = l.filter (fun r => decide (r.instrument = id)))
    (hne : g ≠ [])
    (hsort : (g.map (fun r => r.date)).Sorted (fun a b => a ≤ b)) :
    summaryRowOf id g ∈ latestAlerts l
    ∧ summaryRowOf id g =
        { instrument := id,
          date := some ((g.getLast hne).date),
          pct := lastNonNullQ (g.map (fun r => r.pct)),
          rank := lastNonNullQ (g.map (fun r => r.rank)),
          alert := some ((g.getLast hne).alert),
          trend := some ((g.getLast hne).trend) }
    ∧ (∀ r ∈ g, r.date ≤ (g.getLast hne).date)
    ∧ (∀ a b : ℚ, (g.getLast hne).pct = some a → (g.getLast hne).rank = some b →
        summaryRowOf id g =
          { instrument := id, date := some ((g.getLast hne).date),
            pct := some a, rank := some b,
            alert := some ((g.getLast hne).alert),
            trend := some ((g.getLast hne).trend) }) := by
  have hdate : (g.map (fun r => r.date)).getLast? = some ((g.getLast hne).date) := by
    rw [List.getLast?_map, List.getLast?_eq_getLast g hne]
    rfl
  have halert : (g.map (fun r => r.alert)).getLast? = some ((g.getLast hne).alert) := by
    rw [List.getLast?_map, List.getLast?_eq_getLast g hne]
    rfl
  have htrend : (g.map (fun r => r.trend)).getLast? = some ((g.getLast hne).trend) := by
    rw [List.getLast?_map, List.getLast?_eq_getLast g hne]
    rfl
  have heq : summaryRowOf id g =
      { instrument := id,
        date := some ((g.getLast hne).date),
        pct := lastNonNullQ (g.map (fun r => r.pct)),
        rank := lastNonNullQ (g.map (fun r => r.rank)),
        alert := some ((g.getLast hne).alert),
        trend := some ((g.getLast hne).trend) } := by
    unfold summaryRowOf
    rw [hdate, halert, htrend]
  refine ⟨?_, heq, ?_, ?_⟩
  · obtain ⟨r, hr⟩ := List.exists_mem_of_ne_nil g hne
    rw [hg] at hr
    have hrl : r ∈ l := (List.mem_filter.mp hr).1
    have hri : r.instrument = id := by
      have := (List.mem_filter.mp hr).2
      simpa using this
    have hid : id ∈ (l.map (fun s => s.instrument)).dedup := by
      apply List.mem_dedup.mpr
      rw [← hri]
      exact List.mem_map_of_mem _ hrl
    rw [hg]
    exact List.mem_map_of_mem _ hid
  · intro r hrG
    have hmap : r.date ∈ g.map (fun s => s.date) := List.mem_map_of_mem _ hrG
    have hneM : g.map (fun s => s.date) ≠ [] := by
      simpa using hne
    have hle := le_getLast_of_sorted _ hsort hneM _ hmap
    have h1 : (g.map (fun s => s.date)).getLast? =
        some ((g.map (fun s => s.date)).getLast hneM) :=
      List.getLast?_eq_getLast _ hneM
    rw [hdate] at h1
    rw [← Option.some.inj h1] at hle
    exact hle
  · intro a b hpa hrb
    rw [heq]
    have hp : lastNonNullQ (g.map (fun r => r.pct)) = some a := by
      apply lastNonNullQ_of_getLast
      rw [List.getLast?_map, List.getLast?_eq_getLast g hne]
      simp [hpa]
    have hrk : lastNonNullQ (g.map (fun r => r.rank)) = some b := by
      apply lastNonNullQ_of_getLast
      rw [List.getLast?_map, List.getLast?_eq_getLast g hne]
      simp [hrb]
    rw [hp, hrk]

/-- A literal processed record for the C6 amended witness. -/
def w6Rec : ProcRec :=
  { instrument := "X", date := 2, long := some 1, short := some 0, oi := some 100,
    net := some 1, pct := some 1, rank := some 50,
    alert := Alert.neutral, trend := Trend.flat }

theorem claim6_latest_amended_witness :
    summaryRowOf "X" [w6Rec] ∈ latestAlerts [w6Rec]
    ∧ summaryRowOf "X" [w6Rec] =
        { instrument := "X", date := some 2, pct := some 1, rank := some 50,
          alert := some Alert.neutral, trend := some Trend.flat } := by
  have h := claim6_latest_amended [w6Rec] "X" [w6Rec] (by simp [w6Rec]) (by simp)
    (by simp)
  refine ⟨h.1, ?_⟩
  have h2 := h.2.2.2 1 50 rfl rfl
  exact h2

/-- C10: the alert summary holds a row for an instrument exactly when the
instrument has at least one record dated on or after start_current, which is
January 1 of the year preceding the run year; instruments whose data ends
before that cutoff are absent from the summary even though they were
processed. -/
theorem claim10_summary_cutoff (recs : List RawRec) (endYear : ℤ) (id : String) :
    ((∃ row ∈ latestAlerts (currentData recs endYear), row.instrument = id) ↔
      ∃ r ∈ recs, r.instrument = id ∧ startCurrent endYear ≤ r.date)
    ∧ startCurrent endYear = (jan1Ordinal (endYear - 1) : ℚ) := by
  constructor
  · rw [latestAlerts_instrument_iff]
    unfold currentData
    constructor
    · rintro ⟨p, hp, hid⟩
      rcases List.mem_filter.mp hp with ⟨hp1, hp2⟩
      have hex : ∃ q ∈ processAll recs, q.instrument = id ∧ startCurrent endYear ≤ q.date :=
        ⟨p, hp1, hid, by simpa using hp2⟩
      rcases (exists_mem_processAll_iff recs
          (fun s d => s = id ∧ startCurrent endYear ≤ d)).mp hex with ⟨r, hr, h1, h2⟩
      exact ⟨r, hr, h1, h2⟩
    · rintro ⟨r, hr, h1, h2⟩
      rcases (exists_mem_processAll_iff recs
          (fun s d => s = id ∧ startCurrent endYear ≤ d)).mpr ⟨r, hr, h1, h2⟩
        with ⟨p, hp, hp1, hp2⟩
      exact ⟨p, List.mem_filter.mpr ⟨hp, by simpa using hp2⟩, hp1⟩
  · rw [startCurrent, yearsBackCurrent]

end COT
